import Mathlib

/-!
Shallow embedding of SirJonthe/md5 (src/md5.h, src/md5.cpp).

Machine integers are modelled as `Nat` with explicit `% 2^32` (resp. `% 2^64`)
wherever the C++ code performs 32-bit (resp. 64-bit) wraparound arithmetic.
The host machine is modelled as little-endian (`is_lil()` true, `is_big()`
false), so the union reinterpretations of byte buffers as `u32` words become
little-endian byte-to-word assembly, and the big-endian byte-swap branch in
`md5::digest` is not taken.

Byte buffers are `List Nat` (each element a byte value < 256); the four state
words are a `List Nat` of length 4.
-/

set_option maxRecDepth 100000

namespace Md5

/-- Constant `BYTES_PER_CHUNK = 512 / CHAR_BIT` from md5.h. -/
def BYTES_PER_CHUNK : Nat := 64

/-- Table `ShiftTable` from md5.cpp: the per-round shift offsets. -/
def ShiftTable : List Nat := [
  7, 12, 17, 22,  7, 12, 17, 22,  7, 12, 17, 22,  7, 12, 17, 22,
  5,  9, 14, 20,  5,  9, 14, 20,  5,  9, 14, 20,  5,  9, 14, 20,
  4, 11, 16, 23,  4, 11, 16, 23,  4, 11, 16, 23,  4, 11, 16, 23,
  6, 10, 15, 21,  6, 10, 15, 21,  6, 10, 15, 21,  6, 10, 15, 21]

/-- Table `SineTable` from md5.cpp: the 64 sine-derived round constants. -/
def SineTable : List Nat := [
  0xd76aa478, 0xe8c7b756, 0x242070db, 0xc1bdceee,
  0xf57c0faf, 0x4787c62a, 0xa8304613, 0xfd469501,
  0x698098d8, 0x8b44f7af, 0xffff5bb1, 0x895cd7be,
  0x6b901122, 0xfd987193, 0xa679438e, 0x49b40821,
  0xf61e2562, 0xc040b340, 0x265e5a51, 0xe9b6c7aa,
  0xd62f105d, 0x02441453, 0xd8a1e681, 0xe7d3fbc8,
  0x21e1cde6, 0xc33707d6, 0xf4d50d87, 0x455a14ed,
  0xa9e3e905, 0xfcefa3f8, 0x676f02d9, 0x8d2a4c8a,
  0xfffa3942, 0x8771f681, 0x6d9d6122, 0xfde5380c,
  0xa4beea44, 0x4bdecfa9, 0xf6bb4b60, 0xbebfbc70,
  0x289b7ec6, 0xeaa127fa, 0xd4ef3085, 0x04881d05,
  0xd9d4d039, 0xe6db99e5, 0x1fa27cf8, 0xc4ac5665,
  0xf4292244, 0x432aff97, 0xab9423a7, 0xfc93a039,
  0x655b59c3, 0x8f0ccc92, 0xffeff47d, 0x85845dd1,
  0x6fa87e4f, 0xfe2ce6e0, 0xa3014314, 0x4e0811a1,
  0xf7537e82, 0xbd3af235, 0x2ad7d2bb, 0xeb86d391]

/-- Function `md5::leftrotate(u32 x, u32 c)`: `(x << c) | (x >> (32 - c))`, where the
`u32` left shift truncates mod 2^32. -/
def leftrotate (x c : Nat) : Nat :=
  ((x <<< c) % 2 ^ 32) ||| (x >>> (32 - c))

/-- Reassemble a little-endian 32-bit word from four bytes, as the union
`{ u32 w32[16]; u8 w8[64]; }` does on a little-endian host. -/
def wordOfBytes4 (b0 b1 b2 b3 : Nat) : Nat :=
  b0 + b1 * 256 + b2 * 65536 + b3 * 16777216

/-- View a byte buffer as little-endian 32-bit words (union reinterpretation
on a little-endian host). -/
def wordsOfBytes : List Nat → List Nat
  | b0 :: b1 :: b2 :: b3 :: rest => wordOfBytes4 b0 b1 b2 b3 :: wordsOfBytes rest
  | _ => []

/-- The four bytes of a 32-bit word, little-endian first. -/
def bytesOfWord (w : Nat) : List Nat :=
  [w % 256, w / 256 % 256, w / 65536 % 256, w / 16777216 % 256]

/-- View a word buffer as its bytes on a little-endian host. -/
def bytesOfWords (ws : List Nat) : List Nat :=
  ws.flatMap bytesOfWord

/-- One iteration of the round loop in `md5::process_chunk`, acting on the
working tuple `(A, B, C, D)` at round index `i`.  Matches the loop body:
the round-dependent `F`/`g` selection, `F = F + A + SineTable[i] + M[g]`
(u32 wraparound), then `A = D; D = C; C = B; B += leftrotate(F, ShiftTable[i])`. -/
def md5step (M : List Nat) (s : Nat × Nat × Nat × Nat) (i : Nat) :
    Nat × Nat × Nat × Nat :=
  let A := s.1
  let B := s.2.1
  let C := s.2.2.1
  let D := s.2.2.2
  let F :=
    if i < 16 then (B &&& C) ||| ((B ^^^ 0xffffffff) &&& D)
    else if i < 32 then (D &&& B) ||| ((D ^^^ 0xffffffff) &&& C)
    else if i < 48 then B ^^^ C ^^^ D
    else C ^^^ (B ||| (D ^^^ 0xffffffff))
  let g :=
    if i < 16 then i
    else if i < 32 then (5 * i + 1) % 16
    else if i < 48 then (3 * i + 5) % 16
    else (7 * i) % 16
  let F2 := (F + A + SineTable.getD i 0 + M.getD g 0) % 2 ^ 32
  (D, (B + leftrotate F2 (ShiftTable.getD i 0)) % 2 ^ 32, B, C)

/-- Function `md5::process_chunk(const u32 *M, u32 *X)`: 64 rounds over the working
copy of the state, then the feed-forward `X[j] += working[j]` (u32 add). -/
def process_chunk (M : List Nat) (X : List Nat) : List Nat :=
  let A0 := X.getD 0 0
  let B0 := X.getD 1 0
  let C0 := X.getD 2 0
  let D0 := X.getD 3 0
  let r := (List.range 64).foldl (md5step M) (A0, B0, C0, D0)
  [(A0 + r.1) % 2 ^ 32, (B0 + r.2.1) % 2 ^ 32,
   (C0 + r.2.2.1) % 2 ^ 32, (D0 + r.2.2.2) % 2 ^ 32]

/-- The engine fields of `class md5`: `m_state` (four u32 words), `m_chunk`
(64-byte pending block buffer), `m_message_size` (u64), `m_chunk_size` (u32,
count of valid pending bytes). -/
structure Engine where
  state : List Nat
  chunk : List Nat
  message_size : Nat
  chunk_size : Nat
deriving DecidableEq, Repr

/-- The default constructor `md5::md5()`: the four RFC 1321 initial state
words, zero counters.  (`m_chunk` is left uninitialized by the constructor
and only its first `m_chunk_size = 0` bytes are ever read before being
overwritten; we model it as zeros.) -/
def md5_init : Engine :=
  { state := [0x67452301, 0xefcdab89, 0x98badcfe, 0x10325476]
    chunk := List.replicate 64 0
    message_size := 0
    chunk_size := 0 }

/-- Predicate `md5::is_aligned(const void *mem)`: `(uintptr & 3) != 0`.  (Note: the
source returns *true* for misaligned addresses.)  `addr` models the pointer
value of the incoming buffer. -/
def is_aligned (addr : Nat) : Bool :=
  addr % 4 != 0

/-- Function `md5::blit(const u8 *src, u8 *dst, u32 num)`: copies `num` bytes from
`src` to the start of the 64-byte destination and zero-fills the remaining
`64 - num` bytes.  The old destination contents are entirely overwritten, so
the result depends only on `src` and `num`. -/
def blit (src : List Nat) (num : Nat) : List Nat :=
  src.take num ++ List.replicate (64 - num) 0

/-- The `while (byte_count > 0)` loop of `md5::ingest(const void*, u64)`.
`addr` is the pointer value of `msg` (advanced as bytes are consumed); `fuel`
bounds the iteration count (each iteration consumes at least one byte while
`chunk_size < 64`, so `fuel = msg.length` suffices for all reachable states). -/
def ingest_loop : Nat → Engine → List Nat → Nat → Engine
  | 0, e, _, _ => e
  | fuel + 1, e, msg, addr =>
    if msg.length = 0 then e
    else if e.chunk_size = 0 ∧ 64 ≤ msg.length ∧ is_aligned addr = true then
      -- performance path: process one 64-byte block straight from the input
      ingest_loop fuel
        { e with state := process_chunk (wordsOfBytes (msg.take 64)) e.state }
        (msg.drop 64) (addr + 64)
    else if msg.length < 64 - e.chunk_size then
      -- byte_count < BYTES_REMAINING: stash the bytes in m_chunk and stop
      { e with chunk := blit msg msg.length
               chunk_size := e.chunk_size + msg.length }
    else
      -- fill m_chunk up to 64 bytes' worth, process it, and continue
      let rem := 64 - e.chunk_size
      let c := blit msg rem
      ingest_loop fuel
        { e with chunk := c
                 state := process_chunk (wordsOfBytes c) e.state
                 chunk_size := 0 }
        (msg.drop rem) (addr + rem)

/-- Function `md5::ingest(const void *message, u64 byte_count)`: bumps
`m_message_size` (u64 wraparound) then runs the consumption loop. -/
def ingest (e : Engine) (msg : List Nat) (addr : Nat) : Engine :=
  ingest_loop msg.length
    { e with message_size := (e.message_size + msg.length) % 2 ^ 64 }
    msg addr

/-- The eight bytes of `u64` value `n` in little-endian order, as `memcpy`
of the u64 produces on a little-endian host. -/
def u64_le_bytes (n : Nat) : List Nat :=
  [n % 256, (n >>> 8) % 256, (n >>> 16) % 256, (n >>> 24) % 256,
   (n >>> 32) % 256, (n >>> 40) % 256, (n >>> 48) % 256, (n >>> 56) % 256]

/-- Function `md5::process_final_chunks(u32 *X)` on a little-endian host: build the
padded tail block(s) from the pending bytes, the 0x80 marker, zero padding
and the 64-bit little-endian bit length, and run `process_chunk` once or
twice on them. -/
def process_final_chunks (e : Engine) (X : List Nat) : List Nat :=
  let byte_count := e.chunk_size
  let padding_size0 := 64 - e.message_size % 64
  let padding_size :=
    if padding_size0 < 9 then padding_size0 + 64 else padding_size0
  -- memcpy(chunk, m_chunk, byte_count); chunk[byte_count] = 0x80; zero the rest
  let c1 := e.chunk.take byte_count ++ [0x80] ++
    List.replicate (64 - (byte_count + 1)) 0
  let total := byte_count + padding_size
  let bitsize := e.message_size * 8 % 2 ^ 64
  let lenb := u64_le_bytes bitsize
  if 64 < total then
    -- two blocks: process the marker block, then a zero block ending in lenb
    let X1 := process_chunk (wordsOfBytes c1) X
    process_chunk (wordsOfBytes (List.replicate 56 0 ++ lenb)) X1
  else
    -- one block: overwrite the last 8 bytes of c1 with lenb
    process_chunk (wordsOfBytes (c1.take 56 ++ lenb)) X

/-- Function `md5::digest()` on a little-endian host: copy the state into the output
sum, run `process_final_chunks` on the copy, and serialize the four words as
16 bytes (no byte swap since `is_big()` is false).  The live engine is not
modified (`digest` is `const` and writes only to the local copy), which is
why this is a pure function of the engine. -/
def digest_bytes (e : Engine) : List Nat :=
  bytesOfWords (process_final_chunks e e.state)

/-- The lowercase digit table `DIGITS` of `md5::sum::sprint_hex`. -/
def HEX_DIGITS : List Char :=
  "0123456789abcdef".toList

/-- Function `md5::sum::sprint_hex`: two hex characters per byte, high nibble first. -/
def sprint_hex (bytes : List Nat) : List Char :=
  bytes.flatMap fun b => [HEX_DIGITS.getD (b >>> 4) '0', HEX_DIGITS.getD (b &&& 15) '0']

/-- Function `md5::sum::hex()`: the 32-character hex string of the 16 digest bytes. -/
def hex (bytes : List Nat) : String :=
  String.mk (sprint_hex bytes)

/-- Operator `md5::sum::operator==`: true iff all 16 byte positions are equal. -/
def sum_eq (a b : List Nat) : Bool :=
  (List.range 16).all fun i => a.getD i 0 == b.getD i 0

/-- Operator `md5::sum::operator!=`: the loop returns false as soon as some byte
position is *equal*, so the operator is true iff all 16 positions differ. -/
def sum_ne (a b : List Nat) : Bool :=
  (List.range 16).all fun i => a.getD i 0 != b.getD i 0

/-- Destructor `md5::~md5()`: `memset(m_state.u8, 0, sizeof(m_state.u8))` — the four
state words are zeroed; `m_chunk` and the counters are not touched.  The
result models the object's memory contents after the destructor body ran. -/
def destruct (e : Engine) : Engine :=
  { e with state := List.replicate 4 0 }

/-! ### Spec-side round function (from the wording of the round-structure
claim): the same 64-round schedule written with simultaneous assignments,
an arithmetic definition of 32-bit bitwise complement, and an arithmetic
definition of circular left rotation. -/

/-- Bitwise complement of a 32-bit value, arithmetically: `2^32 - 1 - x`. -/
def not32 (x : Nat) : Nat := 2 ^ 32 - 1 - x

/-- Circular left shift of a 32-bit value by `c` bits, arithmetically: the
low `32 - c` bits move up by `c` places and the high `c` bits wrap around to
the bottom. -/
def rotl32 (x c : Nat) : Nat :=
  (x % 2 ^ (32 - c)) * 2 ^ c + x / 2 ^ (32 - c)

/-- One RFC 1321 round, as the spec states it: select `F` and `g` by the
range of `i`, set `F ← F + A + K[i] + M[g]` with 32-bit wraparound, then
simultaneously `A←D, D←C, C←B, B←B + leftrotate(F, S[i])`. -/
def rfc_step (M : List Nat) (s : Nat × Nat × Nat × Nat) (i : Nat) :
    Nat × Nat × Nat × Nat :=
  let A := s.1
  let B := s.2.1
  let C := s.2.2.1
  let D := s.2.2.2
  let F :=
    if i < 16 then (B &&& C) ||| (not32 B &&& D)
    else if i < 32 then (D &&& B) ||| (not32 D &&& C)
    else if i < 48 then B ^^^ C ^^^ D
    else C ^^^ (B ||| not32 D)
  let g :=
    if i < 16 then i
    else if i < 32 then (5 * i + 1) % 16
    else if i < 48 then (3 * i + 5) % 16
    else (7 * i) % 16
  let F2 := (F + A + SineTable.getD i 0 + M.getD g 0) % 2 ^ 32
  (D, (B + rotl32 F2 (ShiftTable.getD i 0)) % 2 ^ 32, B, C)

/-- The compression function as the spec states it: 64 rounds of `rfc_step`,
then the feed-forward adding the working values back into the state words
mod 2^32. -/
def rfc_process_chunk (M : List Nat) (X : List Nat) : List Nat :=
  let A0 := X.getD 0 0
  let B0 := X.getD 1 0
  let C0 := X.getD 2 0
  let D0 := X.getD 3 0
  let r := (List.range 64).foldl (rfc_step M) (A0, B0, C0, D0)
  [(A0 + r.1) % 2 ^ 32, (B0 + r.2.1) % 2 ^ 32,
   (C0 + r.2.2.1) % 2 ^ 32, (D0 + r.2.2.2) % 2 ^ 32]

/-- All four components of a working tuple are 32-bit values. -/
def u32good (s : Nat × Nat × Nat × Nat) : Prop :=
  s.1 < 2 ^ 32 ∧ s.2.1 < 2 ^ 32 ∧ s.2.2.1 < 2 ^ 32 ∧ s.2.2.2 < 2 ^ 32

/-- Every `ShiftTable` entry at a round index is below 32 (helper shared by
several proofs). -/
theorem shiftTable_lt (i : Nat) (hi : i < 64) : ShiftTable.getD i 0 < 32 := by
  revert hi
  revert i
  decide

/-- XOR with the all-ones 32-bit mask is the arithmetic 32-bit complement. -/
theorem xor_mask_eq (x : Nat) (h : x < 2 ^ 32) : x ^^^ 0xffffffff = not32 x := by
  have h32 : (0xffffffff : Nat) = 2 ^ 32 - 1 := by norm_num
  have hsub : not32 x = 2 ^ 32 - (x + 1) := by
    unfold not32
    omega
  rw [h32, hsub]
  apply Nat.eq_of_testBit_eq
  intro i
  rw [Nat.testBit_xor, Nat.testBit_two_pow_sub_one, Nat.testBit_two_pow_sub_succ h]
  by_cases hi : i < 32
  · simp [hi]
  · have hxi : x < 2 ^ i :=
      lt_of_lt_of_le h (Nat.pow_le_pow_right (by norm_num) (by omega))
    simp [hi, Nat.testBit_lt_two_pow hxi]

/-- The source's shift-or implementation of rotation agrees with the
arithmetic circular left shift on 32-bit values for rotation amounts
below 32. -/
theorem leftrotate_eq_rotl32 (x c : Nat) (hx : x < 2 ^ 32) (hc : c < 32) :
    leftrotate x c = rotl32 x c := by
  unfold leftrotate rotl32
  have hsplit : (2 : Nat) ^ 32 = 2 ^ (32 - c) * 2 ^ c := by
    rw [← pow_add]
    congr 1
    omega
  have hdiv : x / 2 ^ (32 - c) < 2 ^ c := by
    apply Nat.div_lt_of_lt_mul
    rw [← hsplit]
    exact hx
  rw [Nat.shiftLeft_eq, Nat.shiftRight_eq_div_pow, hsplit, Nat.mul_mod_mul_right]
  rw [Nat.mul_comm (x % 2 ^ (32 - c)) (2 ^ c), ← Nat.mul_add_lt_is_or hdiv]

/-- The round body `md5step` keeps the working tuple inside 32 bits. -/
theorem md5step_good (M : List Nat) (s : Nat × Nat × Nat × Nat) (i : Nat)
    (h : u32good s) : u32good (md5step M s i) := by
  obtain ⟨h1, h2, h3, h4⟩ := h
  exact ⟨h4, Nat.mod_lt _ (by norm_num), h2, h3⟩

/-- The source round body and the spec round body agree on 32-bit working
tuples at round indices below 64. -/
theorem md5step_eq_rfc (M : List Nat) (s : Nat × Nat × Nat × Nat) (i : Nat)
    (hi : i < 64) (h : u32good s) : md5step M s i = rfc_step M s i := by
  obtain ⟨h1, h2, h3, h4⟩ := h
  simp only [md5step, rfc_step]
  rw [xor_mask_eq _ h2, xor_mask_eq _ h4,
    leftrotate_eq_rotl32 _ _ (Nat.mod_lt _ (by norm_num)) (shiftTable_lt i hi)]

/-- Folding the source round body over any list of round indices below 64
agrees with folding the spec round body, from any 32-bit start tuple. -/
theorem foldl_md5step_eq (M : List Nat) :
    ∀ (l : List Nat) (s : Nat × Nat × Nat × Nat),
      (∀ i ∈ l, i < 64) → u32good s →
        l.foldl (md5step M) s = l.foldl (rfc_step M) s := by
  intro l
  induction l with
  | nil => intro s _ _; rfl
  | cons a t ih =>
    intro s hmem hs
    simp only [List.foldl_cons]
    calc t.foldl (md5step M) (md5step M s a)
        = t.foldl (rfc_step M) (md5step M s a) :=
          ih _ (fun i hi => hmem i (List.mem_cons_of_mem a hi))
            (md5step_good M s a hs)
      _ = t.foldl (rfc_step M) (rfc_step M s a) := by
          rw [md5step_eq_rfc M s a (hmem a (List.mem_cons_self a t)) hs]

/-- Any position of a list of 32-bit values reads below 2^32 (default 0). -/
theorem getD_lt_of_forall :
    ∀ (X : List Nat) (i : Nat), (∀ w ∈ X, w < 2 ^ 32) → X.getD i 0 < 2 ^ 32
  | [], _, _ => by simp [List.getD]
  | x :: _, 0, h => by simpa using h x (by simp)
  | _ :: t, i + 1, h =>
    by simpa using getD_lt_of_forall t i (fun w hw => h w (by simp [hw]))

/-- C2: for every 64-byte block viewed as sixteen 32-bit words `M` and every
32-bit state `(A,B,C,D)`, `process_chunk` performs exactly the RFC 1321
round schedule the spec describes — per round `F ← F + A + K[i] + M[g]` with
32-bit wraparound, simultaneous `A←D, D←C, C←B, B←B + leftrotate(F, S[i])`
with the round-dependent `F`/`g` selections, and after 64 rounds the
feed-forward adds the working values back into the state mod 2^32. -/
theorem c2_process_chunk_is_rfc (M X : List Nat)
    (_hM : ∀ w ∈ M, w < 2 ^ 32) (hX : ∀ w ∈ X, w < 2 ^ 32) :
    process_chunk M X = rfc_process_chunk M X := by
  simp only [process_chunk, rfc_process_chunk]
  rw [foldl_md5step_eq M (List.range 64) _
    (fun i hi => List.mem_range.mp hi)
    ⟨getD_lt_of_forall X 0 hX, getD_lt_of_forall X 1 hX,
     getD_lt_of_forall X 2 hX, getD_lt_of_forall X 3 hX⟩]

/-- Witness for C2 at a concrete block and the initial state words. -/
theorem c2_witness :
    process_chunk (List.replicate 16 5)
        [0x67452301, 0xefcdab89, 0x98badcfe, 0x10325476] =
      rfc_process_chunk (List.replicate 16 5)
        [0x67452301, 0xefcdab89, 0x98badcfe, 0x10325476] :=
  c2_process_chunk_is_rfc _ _ (by decide) (by decide)

/-- Modelled from the claim's wording: the block or blocks that finalization
processes.  With `n` pending bytes, append one `0x80` byte after them,
zero-fill up to the last 8 bytes of the final block, and write
`total_length × 8` into those last 8 bytes in little-endian order; when
`n ≥ 56` the marker block is zero-filled to its end and a second, fresh
block carries the length field. -/
def spec_final_blocks (pending : List Nat) (n total : Nat) : List (List Nat) :=
  if 56 ≤ n then
    [pending.take n ++ [0x80] ++ List.replicate (63 - n) 0,
     List.replicate 56 0 ++ u64_le_bytes (total * 8 % 2 ^ 64)]
  else
    [pending.take n ++ [0x80] ++ List.replicate (55 - n) 0 ++
      u64_le_bytes (total * 8 % 2 ^ 64)]

/-- C5: for every engine state (with the representation invariants that the
pending buffer is 64 bytes long, holds fewer than 64 valid bytes, and the
total byte count is congruent to the pending count mod 64 — all maintained
by `ingest`), `process_final_chunks` processes exactly the blocks the spec
describes: pending bytes, one `0x80` marker, zero fill, and the 64-bit
little-endian bit length in the last 8 bytes, using two blocks exactly when
the pending count is at least 56 and one block otherwise. -/
theorem c5_finalization_padding (e : Engine) (X : List Nat)
    (hcs : e.chunk_size < 64) (hlen : e.chunk.length = 64)
    (hinv : e.message_size % 64 = e.chunk_size) :
    process_final_chunks e X =
      (spec_final_blocks e.chunk e.chunk_size e.message_size).foldl
        (fun Y b => process_chunk (wordsOfBytes b) Y) X := by
  simp only [process_final_chunks, spec_final_blocks, hinv]
  by_cases h56 : 56 ≤ e.chunk_size
  · rw [if_pos (by omega : 64 - e.chunk_size < 9),
      if_pos (by omega : 64 < e.chunk_size + (64 - e.chunk_size + 64)),
      if_pos h56]
    simp only [List.foldl_cons, List.foldl_nil]
    have hrep : 64 - (e.chunk_size + 1) = 63 - e.chunk_size := by omega
    rw [hrep]
  · rw [if_neg (by omega : ¬(64 - e.chunk_size < 9)),
      if_neg (by omega : ¬(64 < e.chunk_size + (64 - e.chunk_size))),
      if_neg h56]
    simp only [List.foldl_cons, List.foldl_nil]
    have hA : (e.chunk.take e.chunk_size).length = e.chunk_size := by
      rw [List.length_take, hlen]
      omega
    have h1 : ((e.chunk.take e.chunk_size ++ [0x80]) ++
          List.replicate (64 - (e.chunk_size + 1)) 0).take 56 =
        (e.chunk.take e.chunk_size ++ [0x80]) ++
          List.replicate (55 - e.chunk_size) 0 := by
      rw [List.take_append_eq_append_take,
        List.take_of_length_le (by simp [hA]; omega), List.take_replicate]
      congr 1
      simp only [List.length_append, hA, List.length_cons, List.length_nil]
      congr 1
      omega
    rw [h1]

/-- Witness for C5 on the engine that has ingested the three bytes `1,2,3`,
finalized against the initial state words. -/
theorem c5_witness :
    process_final_chunks (ingest md5_init [1, 2, 3] 0) md5_init.state =
      (spec_final_blocks (ingest md5_init [1, 2, 3] 0).chunk
          (ingest md5_init [1, 2, 3] 0).chunk_size
          (ingest md5_init [1, 2, 3] 0).message_size).foldl
        (fun Y b => process_chunk (wordsOfBytes b) Y) md5_init.state :=
  c5_finalization_padding _ _ (by decide) (by decide) (by decide)

/-- A buffer written by `blit` is exactly 64 bytes long whenever the copy
count is at most both the source length and 64. -/
theorem blit_length (src : List Nat) (num : Nat) (h : num ≤ src.length)
    (h64 : num ≤ 64) : (blit src num).length = 64 := by
  simp only [blit, List.length_append, List.length_take, List.length_replicate]
  omega

/-- The ingestion loop keeps the pending count below 64 and the pending
buffer 64 bytes long. -/
theorem ingest_loop_chunk_inv :
    ∀ (fuel : Nat) (e : Engine) (msg : List Nat) (addr : Nat),
      e.chunk_size < 64 → e.chunk.length = 64 →
      (ingest_loop fuel e msg addr).chunk_size < 64 ∧
        (ingest_loop fuel e msg addr).chunk.length = 64 := by
  intro fuel
  induction fuel with
  | zero => intro e msg addr h1 h2; exact ⟨h1, h2⟩
  | succ n ih =>
    intro e msg addr h1 h2
    simp only [ingest_loop]
    by_cases hm : msg.length = 0
    · rw [if_pos hm]; exact ⟨h1, h2⟩
    · rw [if_neg hm]
      by_cases hfast : e.chunk_size = 0 ∧ 64 ≤ msg.length ∧ is_aligned addr = true
      · rw [if_pos hfast]
        exact ih _ _ _ h1 h2
      · rw [if_neg hfast]
        by_cases hsmall : msg.length < 64 - e.chunk_size
        · rw [if_pos hsmall]
          refine ⟨?_, ?_⟩
          · show e.chunk_size + msg.length < 64
            omega
          · show (blit msg msg.length).length = 64
            exact blit_length _ _ (le_refl _) (by omega)
        · rw [if_neg hsmall]
          apply ih
          · show (0 : Nat) < 64
            omega
          · show (blit msg (64 - e.chunk_size)).length = 64
            exact blit_length _ _ (by omega) (by omega)

/-- The ingestion loop never touches `m_message_size`. -/
theorem ingest_loop_message_size :
    ∀ (fuel : Nat) (e : Engine) (msg : List Nat) (addr : Nat),
      (ingest_loop fuel e msg addr).message_size = e.message_size := by
  intro fuel
  induction fuel with
  | zero => intro e msg addr; rfl
  | succ n ih =>
    intro e msg addr
    simp only [ingest_loop]
    by_cases hm : msg.length = 0
    · rw [if_pos hm]
    · rw [if_neg hm]
      by_cases hfast : e.chunk_size = 0 ∧ 64 ≤ msg.length ∧ is_aligned addr = true
      · rw [if_pos hfast]; exact ih _ _ _
      · rw [if_neg hfast]
        by_cases hsmall : msg.length < 64 - e.chunk_size
        · rw [if_pos hsmall]
        · rw [if_neg hsmall]; exact ih _ _ _

/-- Every state change the ingestion loop makes is an application of the
compression function to some full 64-byte block. -/
theorem ingest_loop_state :
    ∀ (fuel : Nat) (e : Engine) (msg : List Nat) (addr : Nat),
      ∃ bs : List (List Nat), (∀ b ∈ bs, b.length = 64) ∧
        (ingest_loop fuel e msg addr).state =
          bs.foldl (fun Y b => process_chunk (wordsOfBytes b) Y) e.state := by
  intro fuel
  induction fuel with
  | zero => intro e msg addr; exact ⟨[], by simp, rfl⟩
  | succ n ih =>
    intro e msg addr
    simp only [ingest_loop]
    by_cases hm : msg.length = 0
    · rw [if_pos hm]; exact ⟨[], by simp, rfl⟩
    · rw [if_neg hm]
      by_cases hfast : e.chunk_size = 0 ∧ 64 ≤ msg.length ∧ is_aligned addr = true
      · rw [if_pos hfast]
        obtain ⟨bs, hbs, hst⟩ := ih
          { e with state := process_chunk (wordsOfBytes (msg.take 64)) e.state }
          (msg.drop 64) (addr + 64)
        refine ⟨msg.take 64 :: bs, ?_, ?_⟩
        · intro b hb
          rcases List.mem_cons.mp hb with hb | hb
          · subst hb
            simp only [List.length_take]
            omega
          · exact hbs b hb
        · rw [List.foldl_cons]
          exact hst
      · rw [if_neg hfast]
        by_cases hsmall : msg.length < 64 - e.chunk_size
        · rw [if_pos hsmall]; exact ⟨[], by simp, rfl⟩
        · rw [if_neg hsmall]
          obtain ⟨bs, hbs, hst⟩ := ih
            { e with chunk := blit msg (64 - e.chunk_size)
                     state := process_chunk
                       (wordsOfBytes (blit msg (64 - e.chunk_size))) e.state
                     chunk_size := 0 }
            (msg.drop (64 - e.chunk_size)) (addr + (64 - e.chunk_size))
          refine ⟨blit msg (64 - e.chunk_size) :: bs, ?_, ?_⟩
          · intro b hb
            rcases List.mem_cons.mp hb with hb | hb
            · subst hb
              exact blit_length _ _ (by omega) (by omega)
            · exact hbs b hb
          · rw [List.foldl_cons]
            exact hst

/-- Per-call form of the pending-buffer invariants. -/
theorem ingest_chunk_inv (e : Engine) (msg : List Nat) (addr : Nat)
    (h1 : e.chunk_size < 64) (h2 : e.chunk.length = 64) :
    (ingest e msg addr).chunk_size < 64 ∧
      (ingest e msg addr).chunk.length = 64 :=
  ingest_loop_chunk_inv _ _ _ _ h1 h2

/-- Each `ingest` call adds exactly the call's byte count to `m_message_size`
(with the u64 wraparound the C type imposes). -/
theorem ingest_message_size (e : Engine) (msg : List Nat) (addr : Nat) :
    (ingest e msg addr).message_size =
      (e.message_size + msg.length) % 2 ^ 64 := by
  unfold ingest
  rw [ingest_loop_message_size]

/-- Per-call form of the state-change property. -/
theorem ingest_state (e : Engine) (msg : List Nat) (addr : Nat) :
    ∃ bs : List (List Nat), (∀ b ∈ bs, b.length = 64) ∧
      (ingest e msg addr).state =
        bs.foldl (fun Y b => process_chunk (wordsOfBytes b) Y) e.state :=
  ingest_loop_state _ _ _ _

/-- A sequence of `ingest()` calls (each a byte list with its buffer
address) applied to an engine. -/
def ingest_calls (e : Engine) (calls : List (List Nat × Nat)) : Engine :=
  calls.foldl (fun acc p => ingest acc p.1 p.2) e

/-- Combined invariant over any sequence of ingestion calls. -/
theorem ingest_calls_inv :
    ∀ (calls : List (List Nat × Nat)) (e : Engine),
      e.chunk_size < 64 → e.chunk.length = 64 → e.message_size < 2 ^ 64 →
      (ingest_calls e calls).chunk_size < 64 ∧
      (ingest_calls e calls).chunk.length = 64 ∧
      (ingest_calls e calls).message_size =
        (e.message_size + (calls.map (fun p => p.1.length)).sum) % 2 ^ 64 ∧
      ∃ bs : List (List Nat), (∀ b ∈ bs, b.length = 64) ∧
        (ingest_calls e calls).state =
          bs.foldl (fun Y b => process_chunk (wordsOfBytes b) Y) e.state := by
  intro calls
  induction calls with
  | nil =>
    intro e h1 h2 h3
    refine ⟨h1, h2, ?_, ⟨[], by simp, rfl⟩⟩
    simp only [ingest_calls, List.foldl_nil, List.map_nil, List.sum_nil,
      Nat.add_zero]
    exact (Nat.mod_eq_of_lt h3).symm
  | cons p rest ih =>
    intro e h1 h2 h3
    have hcall := ingest_chunk_inv e p.1 p.2 h1 h2
    have hms := ingest_message_size e p.1 p.2
    obtain ⟨bs1, hbs1, hst1⟩ := ingest_state e p.1 p.2
    have hstep : ingest_calls e (p :: rest) = ingest_calls (ingest e p.1 p.2) rest := by
      simp [ingest_calls]
    obtain ⟨g1, g2, g3, bs2, hbs2, hst2⟩ :=
      ih (ingest e p.1 p.2) hcall.1 hcall.2
        (by rw [hms]; exact Nat.mod_lt _ (by norm_num))
    rw [hstep]
    refine ⟨g1, g2, ?_, ⟨bs1 ++ bs2, ?_, ?_⟩⟩
    · rw [g3, hms, Nat.mod_add_mod, List.map_cons, List.sum_cons, Nat.add_assoc]
    · intro b hb
      rcases List.mem_append.mp hb with hb | hb
      · exact hbs1 b hb
      · exact hbs2 b hb
    · rw [hst2, hst1, List.foldl_append]

/-- C6: after construction and after every sequence of `ingest()` calls
(whose total byte count stays below 2^64, the documented domain), the
pending count is strictly below 64, the total byte counter equals the sum of
the byte counts of all the calls (padding is never counted — `digest` never
modifies the engine), and the state words are exactly the initial state
transformed by the compression function applied to some sequence of full
64-byte blocks. -/
theorem c6_engine_invariants (calls : List (List Nat × Nat))
    (hsum : (calls.map (fun p => p.1.length)).sum < 2 ^ 64) :
    (ingest_calls md5_init calls).chunk_size < 64 ∧
    (ingest_calls md5_init calls).message_size =
      (calls.map (fun p => p.1.length)).sum ∧
    ∃ bs : List (List Nat), (∀ b ∈ bs, b.length = 64) ∧
      (ingest_calls md5_init calls).state =
        bs.foldl (fun Y b => process_chunk (wordsOfBytes b) Y) md5_init.state := by
  obtain ⟨h1, _, h3, h4⟩ :=
    ingest_calls_inv calls md5_init (by decide) (by decide)
      (by show (0 : Nat) < 2 ^ 64; norm_num)
  refine ⟨h1, ?_, h4⟩
  rw [h3]
  show (0 + (calls.map (fun p => p.1.length)).sum) % 2 ^ 64 = _
  rw [Nat.zero_add]
  exact Nat.mod_eq_of_lt hsum

/-- Witness for C6 on the two-call sequence ingesting `[1,2,3]` then `[4]`. -/
theorem c6_witness :
    (ingest_calls md5_init [([1, 2, 3], 0), ([4], 0)]).chunk_size < 64 ∧
    (ingest_calls md5_init [([1, 2, 3], 0), ([4], 0)]).message_size =
      ([([1, 2, 3], 0), ([4], 0)].map
        (fun p : List Nat × Nat => p.1.length)).sum ∧
    ∃ bs : List (List Nat), (∀ b ∈ bs, b.length = 64) ∧
      (ingest_calls md5_init [([1, 2, 3], 0), ([4], 0)]).state =
        bs.foldl (fun Y b => process_chunk (wordsOfBytes b) Y) md5_init.state :=
  c6_engine_invariants [([1, 2, 3], 0), ([4], 0)] (by norm_num)

/-- Modelled from the spec's round-trip property: the numeric value of a
lowercase hex digit character (its index in the digit table). -/
def hexVal (c : Char) : Nat :=
  HEX_DIGITS.indexOf c

/-- Modelled from the spec's round-trip property: parse hex characters back
into bytes, two digits per byte, high nibble first. -/
def parse_hex_chars : List Char → List Nat
  | hi :: lo :: rest => (hexVal hi * 16 + hexVal lo) :: parse_hex_chars rest
  | _ => []

/-- Parse a rendered hex string back into its bytes. -/
def parse_hex (s : String) : List Nat :=
  parse_hex_chars s.data

/-- Reading any position of a list with a default that is itself a member
yields a member or the default. -/
theorem getD_mem_or_eq :
    ∀ (l : List Char) (n : Nat) (d : Char), l.getD n d ∈ l ∨ l.getD n d = d
  | [], _, _ => Or.inr rfl
  | x :: _, 0, _ => Or.inl (by simp [List.getD])
  | x :: t, n + 1, d => by
    have h : (x :: t).getD (n + 1) d = t.getD n d := by simp [List.getD]
    rw [h]
    rcases getD_mem_or_eq t n d with hm | he
    · exact Or.inl (List.mem_cons_of_mem x hm)
    · exact Or.inr he

/-- The two hex characters of one byte parse back to the byte. -/
theorem parse_pair (b : Nat) (hb : b < 256) :
    hexVal (HEX_DIGITS.getD (b >>> 4) '0') * 16 +
      hexVal (HEX_DIGITS.getD (b &&& 15) '0') = b := by
  have h1 : b >>> 4 = b / 16 := by
    rw [Nat.shiftRight_eq_div_pow]
  have h2 : b &&& 15 = b % 16 := by
    have h := Nat.and_pow_two_sub_one_eq_mod b 4
    norm_num at h
    exact h
  have hv : ∀ n, n < 16 → hexVal (HEX_DIGITS.getD n '0') = n := by decide
  rw [h1, h2, hv _ (by omega), hv _ (by omega)]
  omega

/-- Rendering then parsing is the identity on byte lists, and the rendering
has two characters per byte, all of them lowercase hex digits. -/
theorem sprint_hex_roundtrip :
    ∀ bs : List Nat, (∀ b ∈ bs, b < 256) →
      parse_hex_chars (sprint_hex bs) = bs ∧
        (sprint_hex bs).length = 2 * bs.length ∧
        ∀ c ∈ sprint_hex bs, c ∈ HEX_DIGITS := by
  intro bs
  induction bs with
  | nil => intro _; exact ⟨rfl, rfl, by simp [sprint_hex]⟩
  | cons b t ih =>
    intro h
    obtain ⟨ih1, ih2, ih3⟩ := ih fun x hx => h x (List.mem_cons_of_mem b hx)
    have hb : b < 256 := h b (List.mem_cons_self b t)
    have hrender : sprint_hex (b :: t) =
        HEX_DIGITS.getD (b >>> 4) '0' :: HEX_DIGITS.getD (b &&& 15) '0' ::
          sprint_hex t := by
      simp [sprint_hex]
    refine ⟨?_, ?_, ?_⟩
    · rw [hrender]
      show (hexVal _ * 16 + hexVal _) :: parse_hex_chars (sprint_hex t) = b :: t
      rw [parse_pair b hb, ih1]
    · rw [hrender]
      simp only [List.length_cons, ih2]
      omega
    · rw [hrender]
      intro c hc
      rcases List.mem_cons.mp hc with hc | hc
      · subst hc
        rcases getD_mem_or_eq HEX_DIGITS (b >>> 4) '0' with hm | he
        · exact hm
        · rw [he]; decide
      rcases List.mem_cons.mp hc with hc | hc
      · subst hc
        rcases getD_mem_or_eq HEX_DIGITS (b &&& 15) '0' with hm | he
        · exact hm
        · rw [he]; decide
      · exact ih3 c hc

/-- C9: for every 16-byte sum, `hex()` returns exactly 32 characters, each a
lowercase hexadecimal digit, two per byte with the most-significant nibble
first in byte order 0..15 — so parsing the rendered string back into 16
bytes reproduces the digest bytes exactly. -/
theorem c9_hex_roundtrip (bytes : List Nat) (hlen : bytes.length = 16)
    (hb : ∀ b ∈ bytes, b < 256) :
    (hex bytes).length = 32 ∧ parse_hex (hex bytes) = bytes ∧
      ∀ c ∈ (hex bytes).data, c ∈ HEX_DIGITS := by
  obtain ⟨h1, h2, h3⟩ := sprint_hex_roundtrip bytes hb
  refine ⟨?_, h1, h3⟩
  show (sprint_hex bytes).length = 32
  rw [h2, hlen]

/-- Witness for C9 at the concrete sum whose 16 bytes are all `0xab`. -/
theorem c9_witness :
    (hex (List.replicate 16 0xab)).length = 32 ∧
      parse_hex (hex (List.replicate 16 0xab)) = List.replicate 16 0xab ∧
      ∀ c ∈ (hex (List.replicate 16 0xab)).data, c ∈ HEX_DIGITS :=
  c9_hex_roundtrip _ (by decide) (by decide)

/-- Sanity check of the embedding against a published MD5 test vector:
the digest of `"abc"` is `900150983cd24fb0d6963f7d28e17f72`. -/
theorem digest_abc_vector :
    hex (digest_bytes (ingest md5_init [0x61, 0x62, 0x63] 0)) =
      "900150983cd24fb0d6963f7d28e17f72" := by
  rfl

/-- C1: a freshly constructed engine has ingested no bytes
(`m_message_size = 0`), and `digest()` on it returns a sum whose hex
rendering is exactly `"d41d8cd98f00b204e9800998ecf8427e"`. -/
theorem c1_empty_digest :
    md5_init.message_size = 0 ∧
      hex (digest_bytes md5_init) = "d41d8cd98f00b204e9800998ecf8427e" :=
  ⟨rfl, rfl⟩

/-- C3 (failing-input evaluation): ingesting the partition `["a"], ["b"]` in
two `ingest()` calls and then taking the digest does *not* yield the same sum
as ingesting `"ab"` in a single call on a fresh engine: the second `ingest`
call's `blit(msg, m_chunk.u8, ...)` overwrites the pending byte `'a'` at
offset 0 instead of appending after it. -/
theorem c3_split_ingest_diverges :
    digest_bytes (ingest (ingest md5_init [0x61] 0) [0x62] 0) ≠
      digest_bytes (ingest md5_init [0x61, 0x62] 0) := by
  decide

/-- C4 (failing-input evaluation): `digest()` itself is `const` and operates
on a private copy, so it leaves the engine unchanged — `digest_bytes` is a
pure function of the engine.  Nevertheless the continuation property fails:
ingest `"x"`, digest, then ingest `"y"` on the same engine and digest again
does not equal the digest of `"xy"` from a fresh engine, because the second
`ingest` clobbers the pending byte. -/
theorem c4_continuation_diverges :
    digest_bytes (ingest (ingest md5_init [0x78] 0) [0x79] 0) ≠
      digest_bytes (ingest md5_init [0x78, 0x79] 0) := by
  decide

/-- C7 (failing-input evaluation): for the two 16-byte sums
`a = 00…00` and `b = 01 00…00` (equal at 15 positions, different at one),
`operator==` returns false and `operator!=` *also* returns false — `!=` is
not the negation of `==`, because its loop only reports true when every byte
position differs. -/
theorem c7_ne_not_negation_of_eq :
    sum_eq (List.replicate 16 0) (1 :: List.replicate 15 0) = false ∧
      sum_ne (List.replicate 16 0) (1 :: List.replicate 15 0) = false := by
  decide

/-- C8 (counterexample): after ingesting one byte, the engine's pending
buffer holds that byte; running the destructor body does *not* zero the
pending block buffer — only `m_state` is cleared by
`memset(m_state.u8, 0, sizeof(m_state.u8))`. -/
theorem c8_chunk_not_cleared :
    (destruct (ingest md5_init [1] 0)).chunk ≠ List.replicate 64 0 := by
  decide

/-- C8 (amended): on destruction, exactly the four state words are set to
zero; the pending block buffer and both counters are left unchanged. -/
theorem c8_destruct_zeroes_state :
    ∀ e : Engine, (destruct e).state = List.replicate 4 0 ∧
      (destruct e).chunk = e.chunk ∧
      (destruct e).message_size = e.message_size ∧
      (destruct e).chunk_size = e.chunk_size :=
  fun _ => ⟨rfl, rfl, rfl, rfl⟩

/-- C10: every entry of `ShiftTable` lies strictly between 0 and 32, so in
every round of `process_chunk` the rotation amount `c` satisfies `0 < c < 32`
and both shift amounts `c` and `32 - c` are strictly less than 32. -/
theorem c10_shift_table_bounds :
    ∀ i, i < 64 →
      0 < ShiftTable.getD i 0 ∧ ShiftTable.getD i 0 < 32 ∧
        32 - ShiftTable.getD i 0 < 32 := by
  decide

/-- Witness for C10 at the concrete round index 0. -/
theorem c10_witness :
    0 < ShiftTable.getD 0 0 ∧ ShiftTable.getD 0 0 < 32 ∧
      32 - ShiftTable.getD 0 0 < 32 :=
  c10_shift_table_bounds 0 (by decide)

end Md5
